import Mathlib

set_option maxHeartbeats 1000000

/-!
Shallow embedding of the algorithmic core of the repository
(rotated-sorted-array search, mountain-array search, BST validation,
BST reconstruction from a pre-order sequence), together with proofs of
the specification's testable properties.

C++ `int` values are modelled as unbounded `Int`; the only places where
the machine width matters are the `std::numeric_limits<int>::lowest()` /
`::max()` seeds of the BST builder, which are modelled by the explicit
constants `intMin = -2^31` and `intMax = 2^31 - 1`.

Loops are modelled as fuel-indexed recursive functions returning `Option`
(`none` = fuel exhausted); every entry point supplies fuel that is proved
sufficient, so the wrappers compute exactly what the C++ code computes.
-/

namespace Codestudio

/-! ### `search`, src/find_target_in_rotated_sorted_array.cpp lines 5-32

The C++ loop state is the pair of `int` indices `(left, right)`;
one fuel unit is one evaluation of the `while (left <= right)` guard.
On empty input the C++ initialisation `int right = nums.size() - 1`
yields `-1` (modular conversion of `SIZE_MAX`), modelled by
`(nums.length : Int) - 1`. -/
def searchLoopF (nums : List Int) (target : Int) : Nat → Int → Int → Option Int
  | 0, _, _ => none
  | fuel+1, left, right =>
    if left > right then some (-1)
    else
      let mid : Int := left + (right - left) / 2
      if nums.getD mid.toNat 0 = target then some mid
      else if nums.getD left.toNat 0 ≤ nums.getD mid.toNat 0 then
        if target ≥ nums.getD left.toNat 0 ∧ target < nums.getD mid.toNat 0 then
          searchLoopF nums target fuel left (mid - 1)
        else
          searchLoopF nums target fuel (mid + 1) right
      else
        if target > nums.getD mid.toNat 0 ∧ target ≤ nums.getD right.toNat 0 then
          searchLoopF nums target fuel (mid + 1) right
        else
          searchLoopF nums target fuel left (mid - 1)

/-- `search` from src/find_target_in_rotated_sorted_array.cpp.
`nums.length + 1` fuel is proved sufficient (`searchLoopF_isSome`). -/
def search (nums : List Int) (target : Int) : Int :=
  (searchLoopF nums target (nums.length + 1) 0 ((nums.length : Int) - 1)).getD (-1)

/-! ### Mountain-array search, src/cpp17_features.cpp lines 244-301 -/

/-- `std::less<int>` (the default comparator of `std::lower_bound`). -/
def less (a b : Int) : Bool := decide (a < b)

/-- `std::greater<int>`, the comparator used by `binarySearchDescending`. -/
def greater (a b : Int) : Bool := decide (b < a)

/-- The standard-library `std::lower_bound` algorithm over the index range
`[first, first+count)` of `arr`, with comparator `comp`; one fuel unit per
`while (count > 0)` iteration. Returns the final value of `first`. -/
def lowerBoundF (arr : List Int) (comp : Int → Int → Bool) (value : Int) :
    Nat → Nat → Nat → Option Nat
  | 0, _, _ => none
  | fuel+1, first, count =>
    if count = 0 then some first
    else
      let step := count / 2
      let it := first + step
      if comp (arr.getD it 0) value then
        lowerBoundF arr comp value fuel (it + 1) (count - (step + 1))
      else
        lowerBoundF arr comp value fuel first step

/-- Loop of `findPeakIndex`, src/cpp17_features.cpp lines 244-260;
state `(left, right)`, one fuel unit per `while (left < right)` guard check. -/
def findPeakIndexF (arr : List Int) : Nat → Int → Int → Option Int
  | 0, _, _ => none
  | fuel+1, left, right =>
    if left < right then
      let mid : Int := left + (right - left) / 2
      if arr.getD mid.toNat 0 < arr.getD (mid + 1).toNat 0 then
        findPeakIndexF arr fuel (mid + 1) right
      else
        findPeakIndexF arr fuel left mid
    else some left

/-- `findPeakIndex`; fuel `arr.length` is proved sufficient for nonempty input. -/
def findPeakIndex (arr : List Int) : Int :=
  (findPeakIndexF arr arr.length 0 ((arr.length : Int) - 1)).getD 0

/-- `binarySearchAscending`, src/cpp17_features.cpp lines 263-269:
`std::lower_bound` on iterators `[begin+left, begin+right+1)` followed by the
`it != end && *it == target` check; returns `distance(begin, it)` or `-1`. -/
def binarySearchAscending (arr : List Int) (target : Int) (left right : Int) : Int :=
  let count := (right + 1 - left).toNat
  match lowerBoundF arr less target (count + 1) left.toNat count with
  | none => -1
  | some idx => if (idx : Int) ≠ right + 1 ∧ arr.getD idx 0 = target then (idx : Int) else -1

/-- `binarySearchDescending`, src/cpp17_features.cpp lines 272-283:
same as the ascending version with comparator `std::greater<int>()`. -/
def binarySearchDescending (arr : List Int) (target : Int) (left right : Int) : Int :=
  let count := (right + 1 - left).toNat
  match lowerBoundF arr greater target (count + 1) left.toNat count with
  | none => -1
  | some idx => if (idx : Int) ≠ right + 1 ∧ arr.getD idx 0 = target then (idx : Int) else -1

/-- `findTargetInMountainArray`, src/cpp17_features.cpp lines 286-301
(`arr.empty()` is `arr.length = 0`). -/
def findTargetInMountainArray (arr : List Int) (target : Int) : Int :=
  if arr.length = 0 then -1
  else
    let peakIndex := findPeakIndex arr
    let result := binarySearchAscending arr target 0 peakIndex
    if result ≠ -1 then result
    else binarySearchDescending arr target (peakIndex + 1) ((arr.length : Int) - 1)

/-! ### Bounds-checked instrumentation of the mountain-array search (claim C9).

`getC` models a single `arr[i]` / `*it` element access: `none` means the
access would be out of bounds. The `...C` functions repeat the definitions
above with every element access routed through `getC`, so
`findTargetInMountainArrayC arr target = some r` states that the whole call
performs only in-bounds accesses (and computes `r`). -/
def getC (arr : List Int) (i : Int) : Option Int :=
  if 0 ≤ i ∧ i < (arr.length : Int) then some (arr.getD i.toNat 0) else none

/-- Bounds-checked `lowerBoundF`. -/
def lowerBoundFC (arr : List Int) (comp : Int → Int → Bool) (value : Int) :
    Nat → Nat → Nat → Option Nat
  | 0, _, _ => none
  | fuel+1, first, count =>
    if count = 0 then some first
    else
      let step := count / 2
      let it := first + step
      match getC arr (it : Int) with
      | none => none
      | some x =>
        if comp x value then
          lowerBoundFC arr comp value fuel (it + 1) (count - (step + 1))
        else
          lowerBoundFC arr comp value fuel first step

/-- Bounds-checked `findPeakIndexF`. -/
def findPeakIndexFC (arr : List Int) : Nat → Int → Int → Option Int
  | 0, _, _ => none
  | fuel+1, left, right =>
    if left < right then
      let mid : Int := left + (right - left) / 2
      match getC arr mid, getC arr (mid + 1) with
      | some x, some y =>
        if x < y then findPeakIndexFC arr fuel (mid + 1) right
        else findPeakIndexFC arr fuel left mid
      | _, _ => none
    else some left

/-- Bounds-checked `binarySearchAscending`; note the short-circuit of
`it != arr.begin() + right + 1 && *it == target`: the element is only
read when the iterator is not the end iterator. -/
def binarySearchAscendingC (arr : List Int) (target : Int) (left right : Int) : Option Int :=
  let count := (right + 1 - left).toNat
  match lowerBoundFC arr less target (count + 1) left.toNat count with
  | none => none
  | some idx =>
    if (idx : Int) ≠ right + 1 then
      match getC arr (idx : Int) with
      | none => none
      | some x => if x = target then some (idx : Int) else some (-1)
    else some (-1)

/-- Bounds-checked `binarySearchDescending`. -/
def binarySearchDescendingC (arr : List Int) (target : Int) (left right : Int) : Option Int :=
  let count := (right + 1 - left).toNat
  match lowerBoundFC arr greater target (count + 1) left.toNat count with
  | none => none
  | some idx =>
    if (idx : Int) ≠ right + 1 then
      match getC arr (idx : Int) with
      | none => none
      | some x => if x = target then some (idx : Int) else some (-1)
    else some (-1)

/-- Bounds-checked `findTargetInMountainArray`. -/
def findTargetInMountainArrayC (arr : List Int) (target : Int) : Option Int :=
  if arr.length = 0 then some (-1)
  else
    match findPeakIndexFC arr arr.length 0 ((arr.length : Int) - 1) with
    | none => none
    | some peakIndex =>
      match binarySearchAscendingC arr target 0 peakIndex with
      | none => none
      | some result =>
        if result ≠ -1 then some result
        else binarySearchDescendingC arr target (peakIndex + 1) ((arr.length : Int) - 1)

/-! ### Binary trees, src/unnamed/part_001 (both programs).

`TreeNode<T>` with `T = int`: a node owns a value and two subtrees. -/
inductive Tree where
  | nil : Tree
  | node : Tree → Int → Tree → Tree
deriving DecidableEq

/-- Number of nodes. -/
def Tree.size : Tree → Nat
  | Tree.nil => 0
  | Tree.node l _ r => l.size + r.size + 1

/-- In-order traversal (left, node, right). -/
def Tree.inorder : Tree → List Int
  | Tree.nil => []
  | Tree.node l v r => l.inorder ++ v :: r.inorder

/-- Pre-order traversal (node, left, right); this is `Solution::printTree`. -/
def Tree.preorder : Tree → List Int
  | Tree.nil => []
  | Tree.node l v r => v :: (l.preorder ++ r.preorder)

/-! ### `Solution::isValidBST`, src/unnamed/part_001 (first program) lines 32-55.

The iterative in-order traversal keeps a stack of visited nodes and the
previously visited value. After a node is popped only its value and its
right subtree are consulted, so a stack entry is modelled as that pair.
One fuel unit is one iteration of either `while` loop (a push or a pop);
`2 * size + 1` units are proved sufficient. -/
def validLoopF : Nat → List (Int × Tree) → Tree → Option Int → Option Bool
  | 0, _, _, _ => none
  | fuel+1, stack, Tree.node l v r, prev => validLoopF fuel ((v, r) :: stack) l prev
  | _+1, [], Tree.nil, _ => some true
  | fuel+1, (v, r) :: stack, Tree.nil, prev =>
    match prev with
    | some p => if v ≤ p then some false else validLoopF fuel stack r (some v)
    | none => validLoopF fuel stack r (some v)

/-- `Solution::isValidBST`. -/
def isValidBST (t : Tree) : Bool :=
  (validLoopF (2 * t.size + 1) [] t none).getD false

/-! ### `Solution::sortedArrayToBST` / `Solution::build`,
src/unnamed/part_001 (second program) lines 129-159, instantiated at
`T = int`. -/

/-- `std::numeric_limits<int>::lowest()`. -/
def intMin : Int := -2147483648

/-- `std::numeric_limits<int>::max()`. -/
def intMax : Int := 2147483647

/-- `Solution::build`. The C++ `int& index` cursor is modelled by passing the
index in and returning its final value. One fuel unit per call;
`nums.length + 1 - index` units are proved sufficient (`buildF_isSome`). -/
def buildF (nums : List Int) : Nat → Nat → Int → Int → Option (Tree × Nat)
  | 0, _, _, _ => none
  | fuel+1, index, lo, hi =>
    if nums.length ≤ index then some (Tree.nil, index)
    else
      let val := nums.getD index 0
      if val ≤ lo ∨ val ≥ hi then some (Tree.nil, index)
      else
        match buildF nums fuel (index + 1) lo val with
        | none => none
        | some (l, i1) =>
          match buildF nums fuel i1 val hi with
          | none => none
          | some (r, i2) => some (Tree.node l val r, i2)

/-- `Solution::sortedArrayToBST`. -/
def sortedArrayToBST (nums : List Int) : Tree :=
  if nums.isEmpty then Tree.nil
  else
    match buildF nums (nums.length + 1) 0 intMin intMax with
    | some (t, _) => t
    | none => Tree.nil

/-! Sanity checks against the `main` functions of the source files. -/

example : search [4, 5, 6, 7, 0, 1, 2] 0 = 4 := by decide
example : search [4, 5, 6, 7, 0, 1, 2] 3 = -1 := by decide
example : search [1] 0 = -1 := by decide
example : search [1] 1 = 0 := by decide
example : search [3, 1] 1 = 1 := by decide
example : findTargetInMountainArray [1, 3, 5, 8, 7, 4, 2] 4 = 5 := by decide
example : findTargetInMountainArray [1, 3, 5, 8, 7, 4, 2] 6 = -1 := by decide
example : isValidBST (Tree.node (Tree.node Tree.nil 1 Tree.nil) 2 (Tree.node Tree.nil 3 Tree.nil)) = true := by decide
example : isValidBST (Tree.node (Tree.node Tree.nil 1 Tree.nil) 5
    (Tree.node (Tree.node Tree.nil 3 Tree.nil) 4 (Tree.node Tree.nil 6 Tree.nil))) = false := by decide
example : (sortedArrayToBST [10, 5, 1, 7, 15, 12, 20]).preorder = [10, 5, 1, 7, 15, 12, 20] := by decide

/-! ### List-access helpers -/

lemma getD_eq_get (l : List Int) {i : Nat} (h : i < l.length) :
    l.getD i 0 = l.get ⟨i, h⟩ := by
  rw [List.getD_eq_getElem?_getD, List.getElem?_eq_getElem h]
  rfl

lemma sorted_getD_lt (l : List Int) (ha : List.Pairwise (· < ·) l) {i j : Nat}
    (hij : i < j) (hj : j < l.length) : l.getD i 0 < l.getD j 0 := by
  have hi : i < l.length := lt_trans hij hj
  have h2 := List.pairwise_iff_get.mp ha ⟨i, hi⟩ ⟨j, hj⟩ (by exact hij)
  rw [getD_eq_get l hi, getD_eq_get l hj]
  exact h2

/-! ### Rotated ascending arrays (claim C1) -/

/-- `nums` is the strictly ascending array `a` rotated left at pivot `p`:
`nums[i] = a[(i + p) % n]`. -/
def RotOf (nums a : List Int) (p : Nat) : Prop :=
  List.Pairwise (· < ·) a ∧ nums.length = a.length ∧ p < a.length ∧
    ∀ i : Nat, i < a.length → nums.getD i 0 = a.getD ((i + p) % a.length) 0

/-- Two positions on the same side of the rotation wrap point are in
ascending order. -/
lemma RotOf.mono {nums a : List Int} {p : Nat} (hr : RotOf nums a p)
    {i j : Nat} (hij : i < j) (hj : j < nums.length)
    (hside : j + p < nums.length ∨ nums.length ≤ i + p) :
    nums.getD i 0 < nums.getD j 0 := by
  obtain ⟨ha, hlen, hp, hval⟩ := hr
  have hi : i < nums.length := lt_trans hij hj
  rw [hlen] at hi hj hside
  rw [hval i hi, hval j hj]
  rcases hside with h | h
  · rw [Nat.mod_eq_of_lt (by omega), Nat.mod_eq_of_lt h]
    exact sorted_getD_lt a ha (by omega) h
  · rw [Nat.mod_eq_sub_mod h, Nat.mod_eq_of_lt (by omega),
        Nat.mod_eq_sub_mod (show a.length ≤ j + p by omega), Nat.mod_eq_of_lt (by omega)]
    exact sorted_getD_lt a ha (by omega) (by omega)

/-- A position before the rotation wrap point holds a strictly larger value
than any position at or after it. -/
lemma RotOf.cross {nums a : List Int} {p : Nat} (hr : RotOf nums a p)
    {i j : Nat} (hi : i < nums.length) (hj : j < nums.length)
    (hiu : i + p < nums.length) (hjw : nums.length ≤ j + p) :
    nums.getD j 0 < nums.getD i 0 := by
  obtain ⟨ha, hlen, hp, hval⟩ := hr
  rw [hlen] at hi hj hiu hjw
  rw [hval i hi, hval j hj]
  rw [Nat.mod_eq_of_lt hiu, Nat.mod_eq_sub_mod hjw, Nat.mod_eq_of_lt (by omega)]
  exact sorted_getD_lt a ha (by omega) hiu

/-- One-step unfolding of `searchLoopF` with the midpoint written out. -/
lemma searchLoopF_succ (nums : List Int) (target : Int) (fuel : Nat) (left right : Int) :
    searchLoopF nums target (fuel + 1) left right =
      if left > right then some (-1)
      else if nums.getD (left + (right - left) / 2).toNat 0 = target then
        some (left + (right - left) / 2)
      else if nums.getD left.toNat 0 ≤ nums.getD (left + (right - left) / 2).toNat 0 then
        if target ≥ nums.getD left.toNat 0 ∧
            target < nums.getD (left + (right - left) / 2).toNat 0 then
          searchLoopF nums target fuel left (left + (right - left) / 2 - 1)
        else searchLoopF nums target fuel (left + (right - left) / 2 + 1) right
      else
        if target > nums.getD (left + (right - left) / 2).toNat 0 ∧
            target ≤ nums.getD right.toNat 0 then
          searchLoopF nums target fuel (left + (right - left) / 2 + 1) right
        else searchLoopF nums target fuel left (left + (right - left) / 2 - 1) := rfl

/-- Loop invariant proof for `search` on a rotated ascending array: with
enough fuel the loop returns an index of the target when the window still
contains every occurrence, and `-1` exactly when the target is absent. -/
lemma searchLoopF_rot {nums a : List Int} {p : Nat} (target : Int) (hr : RotOf nums a p) :
    ∀ fuel : Nat, ∀ left right : Int,
      0 ≤ left → left ≤ right + 1 → right < (nums.length : Int) →
      right - left + 2 ≤ (fuel : Int) →
      (∀ j : Nat, j < nums.length → nums.getD j 0 = target →
        left ≤ (j : Int) ∧ (j : Int) ≤ right) →
      ∃ res : Int, searchLoopF nums target fuel left right = some res ∧
        ((∃ j : Nat, j < nums.length ∧ nums.getD j 0 = target ∧ res = (j : Int)) ∨
         (res = -1 ∧ ∀ j : Nat, j < nums.length → nums.getD j 0 ≠ target)) := by
  intro fuel
  induction fuel with
  | zero =>
    intro left right h0 h1 h2 hf _
    exfalso
    omega
  | succ fuel ih =>
    intro left right h0 h1 h2 hf hInv
    rw [searchLoopF_succ]
    by_cases hlr : left > right
    · rw [if_pos hlr]
      exact ⟨-1, rfl, Or.inr ⟨rfl, fun j hj hval => absurd (hInv j hj hval) (by omega)⟩⟩
    · rw [if_neg hlr]
      set mid : Int := left + (right - left) / 2 with hmiddef
      have hml : left ≤ mid := by omega
      have hmr : mid ≤ right := by omega
      have hmn : mid < (nums.length : Int) := lt_of_le_of_lt hmr h2
      have hm0 : 0 ≤ mid := le_trans h0 hml
      obtain ⟨m, hm⟩ : ∃ m : Nat, (m : Int) = mid := ⟨mid.toNat, Int.toNat_of_nonneg hm0⟩
      obtain ⟨l', hl'⟩ : ∃ k : Nat, (k : Int) = left := ⟨left.toNat, Int.toNat_of_nonneg h0⟩
      have hr0 : 0 ≤ right := le_trans hm0 hmr
      obtain ⟨r', hr2⟩ : ∃ k : Nat, (k : Int) = right := ⟨right.toNat, Int.toNat_of_nonneg hr0⟩
      rw [show mid.toNat = m by omega, show left.toNat = l' by omega,
          show right.toNat = r' by omega]
      have hmn' : m < nums.length := by omega
      have hln' : l' ≤ m := by omega
      have hmr' : m ≤ r' := by omega
      have hr'n : r' < nums.length := by omega
      by_cases hfound : nums.getD m 0 = target
      · rw [if_pos hfound]
        exact ⟨mid, rfl, Or.inl ⟨m, hmn', hfound, hm.symm⟩⟩
      · rw [if_neg hfound]
        by_cases hA : nums.getD l' 0 ≤ nums.getD m 0
        · rw [if_pos hA]
          by_cases hin : target ≥ nums.getD l' 0 ∧ target < nums.getD m 0
          · rw [if_pos hin]
            have hInv2 : ∀ j : Nat, j < nums.length → nums.getD j 0 = target →
                left ≤ (j : Int) ∧ (j : Int) ≤ mid - 1 := by
              intro j hj hval
              obtain ⟨hj1, hj2⟩ := hInv j hj hval
              refine ⟨hj1, ?_⟩
              by_contra hcon
              have hjm : m ≤ j := by omega
              rcases Nat.eq_or_lt_of_le hjm with hEq | hLt
              · exact hfound (hEq ▸ hval)
              · by_cases hw : nums.length ≤ l' + p
                · have := hr.mono hLt hj (Or.inr (by omega))
                  omega
                · push_neg at hw
                  by_cases hjw : nums.length ≤ j + p
                  · have := hr.cross (by omega : l' < nums.length) hj (by omega) hjw
                    omega
                  · push_neg at hjw
                    have := hr.mono hLt hj (Or.inl hjw)
                    omega
            obtain ⟨res, heq, hres⟩ := ih left (mid - 1) h0 (by omega) (by omega) (by omega) hInv2
            exact ⟨res, heq, hres⟩
          · rw [if_neg hin]
            have hNW : m + p < nums.length ∨ nums.length ≤ l' + p := by
              by_cases hw : nums.length ≤ l' + p
              · exact Or.inr hw
              · push_neg at hw
                left
                by_contra hmw
                push_neg at hmw
                have hlm : l' < m := by omega
                have := hr.cross (by omega : l' < nums.length) hmn' hw hmw
                omega
            have hmono : ∀ i j : Nat, l' ≤ i → i ≤ j → j ≤ m →
                nums.getD i 0 ≤ nums.getD j 0 := by
              intro i j hi hij hjm
              rcases Nat.eq_or_lt_of_le hij with hEq | hLt
              · rw [hEq]
              · have : nums.getD i 0 < nums.getD j 0 := by
                  refine hr.mono hLt (by omega) ?_
                  rcases hNW with h | h
                  · exact Or.inl (by omega)
                  · exact Or.inr (by omega)
                omega
            have hInv2 : ∀ j : Nat, j < nums.length → nums.getD j 0 = target →
                mid + 1 ≤ (j : Int) ∧ (j : Int) ≤ right := by
              intro j hj hval
              obtain ⟨hj1, hj2⟩ := hInv j hj hval
              refine ⟨?_, hj2⟩
              by_contra hcon
              have hjm : j ≤ m := by omega
              have hjl : l' ≤ j := by omega
              have hv1 : nums.getD l' 0 ≤ nums.getD j 0 := hmono l' j le_rfl hjl hjm
              have hv2 : nums.getD j 0 ≤ nums.getD m 0 := hmono j m hjl hjm le_rfl
              rw [hval] at hv1 hv2
              exact hin ⟨hv1, by omega⟩
            obtain ⟨res, heq, hres⟩ := ih (mid + 1) right (by omega) (by omega) h2 (by omega) hInv2
            exact ⟨res, heq, hres⟩
        · rw [if_neg hA]
          push_neg at hA
          have hlm : l' < m := by
            rcases Nat.eq_or_lt_of_le hln' with hEq | h
            · rw [hEq] at hA; omega
            · exact h
          have hBl : l' + p < nums.length := by
            by_contra hw
            push_neg at hw
            have := hr.mono hlm hmn' (Or.inr hw)
            omega
          have hBm : nums.length ≤ m + p := by
            by_contra hmw
            push_neg at hmw
            have := hr.mono hlm hmn' (Or.inl (by omega))
            omega
          by_cases hin : target > nums.getD m 0 ∧ target ≤ nums.getD r' 0
          · rw [if_pos hin]
            have hInv2 : ∀ j : Nat, j < nums.length → nums.getD j 0 = target →
                mid + 1 ≤ (j : Int) ∧ (j : Int) ≤ right := by
              intro j hj hval
              obtain ⟨hj1, hj2⟩ := hInv j hj hval
              refine ⟨?_, hj2⟩
              by_contra hcon
              have hjm : j ≤ m := by omega
              rcases Nat.eq_or_lt_of_le hjm with hEq | hLt
              · exact hfound (hEq ▸ hval)
              · by_cases hjw : nums.length ≤ j + p
                · have := hr.mono hLt hmn' (Or.inr hjw)
                  omega
                · push_neg at hjw
                  have := hr.cross hj hr'n hjw (by omega : nums.length ≤ r' + p)
                  omega
            obtain ⟨res, heq, hres⟩ := ih (mid + 1) right (by omega) (by omega) h2 (by omega) hInv2
            exact ⟨res, heq, hres⟩
          · rw [if_neg hin]
            have hmono : ∀ i j : Nat, m ≤ i → i ≤ j → j ≤ r' →
                nums.getD i 0 ≤ nums.getD j 0 := by
              intro i j hi hij hjr
              rcases Nat.eq_or_lt_of_le hij with hEq | hLt
              · rw [hEq]
              · have := hr.mono hLt (by omega) (Or.inr (by omega : nums.length ≤ i + p))
                omega
            have hInv2 : ∀ j : Nat, j < nums.length → nums.getD j 0 = target →
                left ≤ (j : Int) ∧ (j : Int) ≤ mid - 1 := by
              intro j hj hval
              obtain ⟨hj1, hj2⟩ := hInv j hj hval
              refine ⟨hj1, ?_⟩
              by_contra hcon
              have hjm : m ≤ j := by omega
              have hjr : j ≤ r' := by omega
              have hv1 : nums.getD m 0 ≤ nums.getD j 0 := hmono m j le_rfl hjm hjr
              have hv2 : nums.getD j 0 ≤ nums.getD r' 0 := hmono j r' hjm hjr le_rfl
              rw [hval] at hv1 hv2
              exact hin ⟨by omega, hv2⟩
            obtain ⟨res, heq, hres⟩ := ih left (mid - 1) h0 (by omega) (by omega) (by omega) hInv2
            exact ⟨res, heq, hres⟩

/-- C1: for every ascending array of distinct integers rotated at any pivot
`0..n-1` and every target value, `search` returns an index holding the target
when the target is present, and returns `-1` when it is absent. -/
theorem rotated_search_correct (nums a : List Int) (p : Nat) (target : Int)
    (hr : RotOf nums a p) :
    ((∃ j : Nat, j < nums.length ∧ nums.getD j 0 = target) →
      ∃ j : Nat, j < nums.length ∧ nums.getD j 0 = target ∧ search nums target = (j : Int)) ∧
    ((∀ j : Nat, j < nums.length → nums.getD j 0 ≠ target) → search nums target = -1) := by
  obtain ⟨res, heq, hres⟩ := searchLoopF_rot target hr (nums.length + 1) 0
    ((nums.length : Int) - 1) le_rfl (by omega) (by omega) (by push_cast; omega)
    (fun j hj _ => by omega)
  unfold search
  rw [heq]
  rcases hres with ⟨j, hj, hval, hresj⟩ | ⟨hresm, habs⟩
  · constructor
    · intro _
      exact ⟨j, hj, hval, by rw [hresj]; rfl⟩
    · intro habs2
      exact absurd hval (habs2 j hj)
  · constructor
    · rintro ⟨j, hj, hval⟩
      exact absurd hval (habs j hj)
    · intro _
      rw [hresm]
      rfl

/-- Witness for C1: the spec example `[4,5,6,7,0,1,2]` (rotation of
`[0,1,2,4,5,6,7]` at pivot 3) with target `0`. -/
theorem rotated_search_correct_witness :
    ((∃ j : Nat, j < ([4, 5, 6, 7, 0, 1, 2] : List Int).length ∧
        ([4, 5, 6, 7, 0, 1, 2] : List Int).getD j 0 = 0) →
      ∃ j : Nat, j < ([4, 5, 6, 7, 0, 1, 2] : List Int).length ∧
        ([4, 5, 6, 7, 0, 1, 2] : List Int).getD j 0 = 0 ∧
        search [4, 5, 6, 7, 0, 1, 2] 0 = (j : Int)) ∧
    ((∀ j : Nat, j < ([4, 5, 6, 7, 0, 1, 2] : List Int).length →
        ([4, 5, 6, 7, 0, 1, 2] : List Int).getD j 0 ≠ 0) →
      search [4, 5, 6, 7, 0, 1, 2] 0 = -1) :=
  rotated_search_correct [4, 5, 6, 7, 0, 1, 2] [0, 1, 2, 4, 5, 6, 7] 3 0
    ⟨by decide, by decide, by decide, by decide⟩

/-! ### Mountain arrays (claims C2, C7, C9) -/

/-- `arr` is a mountain (unimodal) array with peak index `pk`: values strictly
increase up to `pk` and strictly decrease from `pk` on. -/
def IsMountain (arr : List Int) (pk : Nat) : Prop :=
  pk < arr.length ∧ (∀ i : Nat, i < pk → arr.getD i 0 < arr.getD (i + 1) 0) ∧
    ∀ i : Nat, i < arr.length → pk ≤ i → i + 1 < arr.length →
      arr.getD (i + 1) 0 < arr.getD i 0

lemma IsMountain.asc_lt {arr : List Int} {pk : Nat} (hm : IsMountain arr pk)
    {i j : Nat} (hij : i < j) (hj : j ≤ pk) : arr.getD i 0 < arr.getD j 0 := by
  obtain ⟨hpk, hasc, hdesc⟩ := hm
  induction j with
  | zero => omega
  | succ j ihj =>
    rcases Nat.lt_succ_iff_lt_or_eq.mp hij with h | h
    · exact lt_trans (ihj h (by omega)) (hasc j (by omega))
    · rw [h]
      exact hasc j (by omega)

lemma IsMountain.desc_lt {arr : List Int} {pk : Nat} (hm : IsMountain arr pk)
    {i j : Nat} (hpi : pk ≤ i) (hij : i < j) (hj : j < arr.length) :
    arr.getD j 0 < arr.getD i 0 := by
  obtain ⟨hpk, hasc, hdesc⟩ := hm
  induction j with
  | zero => omega
  | succ j ihj =>
    rcases Nat.lt_succ_iff_lt_or_eq.mp hij with h | h
    · exact lt_trans (hdesc j (by omega) (by omega) hj) (ihj h (by omega))
    · rw [h]
      exact hdesc j (by omega) (by omega) hj

/-- One-step unfolding of `findPeakIndexF`. -/
lemma findPeakIndexF_succ (arr : List Int) (fuel : Nat) (left right : Int) :
    findPeakIndexF arr (fuel + 1) left right =
      if left < right then
        if arr.getD (left + (right - left) / 2).toNat 0 <
            arr.getD (left + (right - left) / 2 + 1).toNat 0 then
          findPeakIndexF arr fuel (left + (right - left) / 2 + 1) right
        else findPeakIndexF arr fuel left (left + (right - left) / 2)
      else some left := rfl

/-- On a mountain array the peak-finding loop converges to the peak index. -/
lemma findPeakIndexF_mountain {arr : List Int} {pk : Nat} (hm : IsMountain arr pk) :
    ∀ fuel : Nat, ∀ left right : Int,
      0 ≤ left → left ≤ (pk : Int) → (pk : Int) ≤ right → right < (arr.length : Int) →
      right - left + 1 ≤ (fuel : Int) →
      findPeakIndexF arr fuel left right = some (pk : Int) := by
  intro fuel
  induction fuel with
  | zero =>
    intro left right h0 h1 h2 h3 hf
    exfalso
    omega
  | succ fuel ih =>
    intro left right h0 h1 h2 h3 hf
    rw [findPeakIndexF_succ]
    by_cases hlt : left < right
    · rw [if_pos hlt]
      set mid : Int := left + (right - left) / 2 with hmiddef
      have hml : left ≤ mid := by omega
      have hmr : mid < right := by omega
      have hm0 : 0 ≤ mid := by omega
      obtain ⟨m, hmc⟩ : ∃ m : Nat, (m : Int) = mid := ⟨mid.toNat, Int.toNat_of_nonneg hm0⟩
      rw [show mid.toNat = m by omega, show (mid + 1).toNat = m + 1 by omega]
      rcases Nat.lt_or_ge m pk with hco | hco
      · rw [if_pos (hm.2.1 m hco)]
        exact ih (mid + 1) right (by omega) (by omega) h2 h3 (by omega)
      · have hd := hm.2.2 m (by omega) hco (by omega)
        rw [if_neg (by omega)]
        exact ih left mid h0 h1 (by omega) (by omega) (by omega)
    · rw [if_neg hlt]
      congr 1
      omega

/-- The peak-finding loop terminates within the stated fuel on any array and
returns a value inside the initial window (no unimodality needed). -/
lemma findPeakIndexF_bounds (arr : List Int) :
    ∀ fuel : Nat, ∀ left right : Int, left ≤ right →
      right - left + 1 ≤ (fuel : Int) →
      ∃ r : Int, findPeakIndexF arr fuel left right = some r ∧ left ≤ r ∧ r ≤ right := by
  intro fuel
  induction fuel with
  | zero =>
    intro left right h1 hf
    exfalso
    omega
  | succ fuel ih =>
    intro left right h1 hf
    rw [findPeakIndexF_succ]
    by_cases hlt : left < right
    · rw [if_pos hlt]
      set mid : Int := left + (right - left) / 2 with hmiddef
      have hml : left ≤ mid := by omega
      have hmr : mid < right := by omega
      by_cases hcmp : arr.getD mid.toNat 0 < arr.getD (mid + 1).toNat 0
      · rw [if_pos hcmp]
        obtain ⟨r, heq, hr1, hr2⟩ := ih (mid + 1) right (by omega) (by omega)
        exact ⟨r, heq, by omega, hr2⟩
      · rw [if_neg hcmp]
        obtain ⟨r, heq, hr1, hr2⟩ := ih left mid (by omega) (by omega)
        exact ⟨r, heq, hr1, by omega⟩
    · rw [if_neg hlt]
      exact ⟨left, rfl, le_rfl, by omega⟩

/-- `findPeakIndex` returns the peak of a mountain array. -/
lemma findPeakIndex_mountain {arr : List Int} {pk : Nat} (hm : IsMountain arr pk) :
    findPeakIndex arr = (pk : Int) := by
  have hpk := hm.1
  have h := findPeakIndexF_mountain hm arr.length 0 ((arr.length : Int) - 1)
    le_rfl (by omega) (by omega) (by omega) (by omega)
  unfold findPeakIndex
  rw [h]
  rfl

/-- One-step unfolding of `lowerBoundF`. -/
lemma lowerBoundF_succ (arr : List Int) (comp : Int → Int → Bool) (value : Int)
    (fuel first count : Nat) :
    lowerBoundF arr comp value (fuel + 1) first count =
      if count = 0 then some first
      else if comp (arr.getD (first + count / 2) 0) value then
        lowerBoundF arr comp value fuel (first + count / 2 + 1) (count - (count / 2 + 1))
      else lowerBoundF arr comp value fuel first (count / 2) := rfl

/-- With enough fuel, `lowerBoundF` over a range on which the predicate
`comp (arr[i]) value` is downward closed returns the partition point. -/
lemma lowerBoundF_partition (arr : List Int) (comp : Int → Int → Bool) (value : Int) :
    ∀ fuel first count : Nat, count + 1 ≤ fuel →
      (∀ i j : Nat, first ≤ i → i ≤ j → j < first + count →
        comp (arr.getD j 0) value = true → comp (arr.getD i 0) value = true) →
      ∃ m : Nat, lowerBoundF arr comp value fuel first count = some m ∧
        first ≤ m ∧ m ≤ first + count ∧
        (∀ i : Nat, first ≤ i → i < m → comp (arr.getD i 0) value = true) ∧
        (∀ i : Nat, m ≤ i → i < first + count → comp (arr.getD i 0) value = false) := by
  intro fuel
  induction fuel with
  | zero =>
    intro first count hf _
    exact absurd hf (by omega)
  | succ fuel ih =>
    intro first count hf hmono
    rw [lowerBoundF_succ]
    by_cases hc0 : count = 0
    · subst hc0
      rw [if_pos rfl]
      exact ⟨first, rfl, le_rfl, by omega,
        fun i h1 h2 => ((by omega : False)).elim,
        fun i h1 h2 => ((by omega : False)).elim⟩
    · rw [if_neg hc0]
      by_cases hcomp : comp (arr.getD (first + count / 2) 0) value = true
      · rw [if_pos hcomp]
        obtain ⟨m, heq, h1, h2, htrue, hfalse⟩ :=
          ih (first + count / 2 + 1) (count - (count / 2 + 1)) (by omega)
            (fun i j hi hij hj hc => hmono i j (by omega) hij (by omega) hc)
        refine ⟨m, heq, by omega, by omega, ?_, ?_⟩
        · intro i hi him
          by_cases hif : first + count / 2 + 1 ≤ i
          · exact htrue i hif him
          · exact hmono i (first + count / 2) hi (by omega) (by omega) hcomp
        · intro i hmi hic
          exact hfalse i hmi (by omega)
      · rw [if_neg hcomp]
        obtain ⟨m, heq, h1, h2, htrue, hfalse⟩ :=
          ih first (count / 2) (by omega)
            (fun i j hi hij hj hc => hmono i j hi hij (by omega) hc)
        refine ⟨m, heq, h1, by omega, htrue, ?_⟩
        intro i hmi hic
        by_cases hif : i < first + count / 2
        · exact hfalse i hmi hif
        · have himp := hmono (first + count / 2) i (by omega) (by omega) (by omega)
          cases hci : comp (arr.getD i 0) value
          · rfl
          · exact absurd (himp hci) hcomp

/-- `lowerBoundF` terminates within the stated fuel with a result inside the
range, on any array and comparator. -/
lemma lowerBoundF_isSome (arr : List Int) (comp : Int → Int → Bool) (value : Int) :
    ∀ fuel first count : Nat, count + 1 ≤ fuel →
      ∃ m : Nat, lowerBoundF arr comp value fuel first count = some m ∧
        first ≤ m ∧ m ≤ first + count := by
  intro fuel
  induction fuel with
  | zero =>
    intro first count hf
    exact absurd hf (by omega)
  | succ fuel ih =>
    intro first count hf
    rw [lowerBoundF_succ]
    by_cases hc0 : count = 0
    · subst hc0
      rw [if_pos rfl]
      exact ⟨first, rfl, le_rfl, by omega⟩
    · rw [if_neg hc0]
      by_cases hcomp : comp (arr.getD (first + count / 2) 0) value = true
      · rw [if_pos hcomp]
        obtain ⟨m, heq, h1, h2⟩ := ih (first + count / 2 + 1) (count - (count / 2 + 1)) (by omega)
        exact ⟨m, heq, by omega, by omega⟩
      · rw [if_neg hcomp]
        obtain ⟨m, heq, h1, h2⟩ := ih first (count / 2) (by omega)
        exact ⟨m, heq, h1, by omega⟩

/-- Behaviour of `binarySearchAscending` on the ascending run `[0, pk]` of a
mountain array: it finds the index of a present target and reports `-1` for
an absent one. -/
lemma binarySearchAscending_mountain {arr : List Int} {pk : Nat} (hm : IsMountain arr pk)
    (target : Int) :
    (∀ i0 : Nat, i0 ≤ pk → arr.getD i0 0 = target →
      binarySearchAscending arr target 0 (pk : Int) = (i0 : Int)) ∧
    ((∀ i0 : Nat, i0 ≤ pk → arr.getD i0 0 ≠ target) →
      binarySearchAscending arr target 0 (pk : Int) = -1) := by
  have hmono : ∀ i j : Nat, 0 ≤ i → i ≤ j → j < 0 + (pk + 1) →
      less (arr.getD j 0) target = true → less (arr.getD i 0) target = true := by
    intro i j _ hij hj hc
    simp only [less, decide_eq_true_eq] at hc ⊢
    rcases Nat.eq_or_lt_of_le hij with hEq | hLt
    · rw [hEq]
      exact hc
    · exact lt_trans (hm.asc_lt hLt (by omega)) hc
  obtain ⟨m, heq, hm1, hm2, htrue, hfalse⟩ :=
    lowerBoundF_partition arr less target (pk + 1 + 1) 0 (pk + 1) le_rfl hmono
  have hstep : binarySearchAscending arr target 0 (pk : Int) =
      if (m : Int) ≠ (pk : Int) + 1 ∧ arr.getD m 0 = target then (m : Int) else -1 := by
    simp only [binarySearchAscending]
    rw [show ((pk : Int) + 1 - 0).toNat = pk + 1 by omega,
      show ((0 : Int)).toNat = 0 from rfl, heq]
  constructor
  · intro i0 hi0 hv0
    have hmi : m = i0 := by
      by_contra hne
      rcases Nat.lt_or_ge m i0 with h | h
      · have h1 := hfalse m le_rfl (by omega)
        simp only [less, decide_eq_false_iff_not] at h1
        exact h1 (by rw [← hv0]; exact hm.asc_lt h (by omega))
      · have h2 := htrue i0 (by omega) (by omega)
        simp only [less, decide_eq_true_eq] at h2
        rw [hv0] at h2
        exact lt_irrefl target h2
    subst hmi
    rw [hstep, if_pos ⟨by omega, hv0⟩]
  · intro habs
    rw [hstep]
    rcases Nat.lt_or_ge m (pk + 1) with h | h
    · exact if_neg (fun hAnd => habs m (by omega) hAnd.2)
    · exact if_neg (fun hAnd => hAnd.1 (by omega))

/-- Behaviour of `binarySearchDescending` on the descending run
`[pk+1, n-1]` of a mountain array. -/
lemma binarySearchDescending_mountain {arr : List Int} {pk : Nat} (hm : IsMountain arr pk)
    (target : Int) :
    (∀ i0 : Nat, pk + 1 ≤ i0 → i0 < arr.length → arr.getD i0 0 = target →
      binarySearchDescending arr target ((pk : Int) + 1) ((arr.length : Int) - 1) = (i0 : Int)) ∧
    ((∀ i0 : Nat, pk + 1 ≤ i0 → i0 < arr.length → arr.getD i0 0 ≠ target) →
      binarySearchDescending arr target ((pk : Int) + 1) ((arr.length : Int) - 1) = -1) := by
  have hpk := hm.1
  have hmono : ∀ i j : Nat, pk + 1 ≤ i → i ≤ j → j < (pk + 1) + (arr.length - (pk + 1)) →
      greater (arr.getD j 0) target = true → greater (arr.getD i 0) target = true := by
    intro i j hi hij hj hc
    simp only [greater, decide_eq_true_eq] at hc ⊢
    rcases Nat.eq_or_lt_of_le hij with hEq | hLt
    · rw [hEq]
      exact hc
    · exact lt_trans hc (hm.desc_lt (by omega) hLt (by omega))
  obtain ⟨m, heq, hm1, hm2, htrue, hfalse⟩ :=
    lowerBoundF_partition arr greater target (arr.length - (pk + 1) + 1) (pk + 1)
      (arr.length - (pk + 1)) le_rfl hmono
  have hstep : binarySearchDescending arr target ((pk : Int) + 1) ((arr.length : Int) - 1) =
      if (m : Int) ≠ (arr.length : Int) - 1 + 1 ∧ arr.getD m 0 = target then (m : Int)
      else -1 := by
    simp only [binarySearchDescending]
    rw [show ((arr.length : Int) - 1 + 1 - ((pk : Int) + 1)).toNat = arr.length - (pk + 1)
        by omega,
      show ((pk : Int) + 1).toNat = pk + 1 by omega, heq]
  constructor
  · intro i0 hi0a hi0b hv0
    have hmi : m = i0 := by
      by_contra hne
      rcases Nat.lt_or_ge m i0 with h | h
      · have h1 := hfalse m le_rfl (by omega)
        simp only [greater, decide_eq_false_iff_not] at h1
        exact h1 (by rw [← hv0]; exact hm.desc_lt (by omega) h hi0b)
      · have h2 := htrue i0 (by omega) (by omega)
        simp only [greater, decide_eq_true_eq] at h2
        rw [hv0] at h2
        exact lt_irrefl target h2
    subst hmi
    rw [hstep, if_pos ⟨by omega, hv0⟩]
  · intro habs
    rw [hstep]
    rcases Nat.lt_or_ge m arr.length with h | h
    · exact if_neg (fun hAnd => habs m (by omega) h hAnd.2)
    · exact if_neg (fun hAnd => hAnd.1 (by omega))

/-- If the target occurs on the ascending run (peak included), the mountain
search returns that (unique) ascending index. -/
lemma findTargetInMountainArray_asc {arr : List Int} {pk : Nat} (hm : IsMountain arr pk)
    {target : Int} {i1 : Nat} (hi1 : i1 ≤ pk) (hv1 : arr.getD i1 0 = target) :
    findTargetInMountainArray arr target = (i1 : Int) := by
  have hlen := hm.1
  have hasc := (binarySearchAscending_mountain hm target).1 i1 hi1 hv1
  simp only [findTargetInMountainArray]
  rw [if_neg (by omega : ¬(arr.length = 0)), findPeakIndex_mountain hm, hasc,
    if_pos (by omega : (i1 : Int) ≠ -1)]

/-- If the target occurs anywhere in a mountain array, the search returns an
index holding it. -/
lemma findTargetInMountainArray_found {arr : List Int} {pk : Nat} (hm : IsMountain arr pk)
    {target : Int} {i0 : Nat} (hi0 : i0 < arr.length) (hv0 : arr.getD i0 0 = target) :
    ∃ j : Nat, j < arr.length ∧ arr.getD j 0 = target ∧
      findTargetInMountainArray arr target = (j : Int) := by
  have hlen := hm.1
  by_cases hcase : ∃ i1 : Nat, i1 ≤ pk ∧ arr.getD i1 0 = target
  · obtain ⟨i1, h1, h2⟩ := hcase
    exact ⟨i1, by omega, h2, findTargetInMountainArray_asc hm h1 h2⟩
  · push_neg at hcase
    have hi0p : pk + 1 ≤ i0 := by
      by_contra h
      exact hcase i0 (by omega) hv0
    have hdesc := (binarySearchDescending_mountain hm target).1 i0 hi0p hi0 hv0
    have hasc := (binarySearchAscending_mountain hm target).2 (fun i hi hv => hcase i hi hv)
    refine ⟨i0, hi0, hv0, ?_⟩
    simp only [findTargetInMountainArray]
    rw [if_neg (by omega : ¬(arr.length = 0)), findPeakIndex_mountain hm, hasc,
      if_neg (fun h => h rfl)]
    exact hdesc

/-- If the target is absent from a mountain array, the search returns `-1`. -/
lemma findTargetInMountainArray_absent {arr : List Int} {pk : Nat} (hm : IsMountain arr pk)
    {target : Int} (habs : ∀ j : Nat, j < arr.length → arr.getD j 0 ≠ target) :
    findTargetInMountainArray arr target = -1 := by
  have hlen := hm.1
  have hasc := (binarySearchAscending_mountain hm target).2
    (fun i hi hv => habs i (by omega) hv)
  have hdesc := (binarySearchDescending_mountain hm target).2
    (fun i hip hi hv => habs i hi hv)
  simp only [findTargetInMountainArray]
  rw [if_neg (by omega : ¬(arr.length = 0)), findPeakIndex_mountain hm, hasc,
    if_neg (fun h => h rfl)]
  exact hdesc

/-- C2: on every mountain array, `findTargetInMountainArray` returns an index
holding the target whenever the target is present, and `-1` when it is
absent from both runs. -/
theorem mountain_search_correct (arr : List Int) (pk : Nat) (target : Int)
    (hm : IsMountain arr pk) :
    ((∃ j : Nat, j < arr.length ∧ arr.getD j 0 = target) →
      ∃ j : Nat, j < arr.length ∧ arr.getD j 0 = target ∧
        findTargetInMountainArray arr target = (j : Int)) ∧
    ((∀ j : Nat, j < arr.length → arr.getD j 0 ≠ target) →
      findTargetInMountainArray arr target = -1) :=
  ⟨fun ⟨_, h1, h2⟩ => findTargetInMountainArray_found hm h1 h2,
   fun habs => findTargetInMountainArray_absent hm habs⟩

/-- Witness for C2: the spec example `[1,3,5,8,7,4,2]` (peak 3) with
target `4`, found at index 5. -/
theorem mountain_search_correct_witness :
    ((∃ j : Nat, j < ([1, 3, 5, 8, 7, 4, 2] : List Int).length ∧
        ([1, 3, 5, 8, 7, 4, 2] : List Int).getD j 0 = 4) →
      ∃ j : Nat, j < ([1, 3, 5, 8, 7, 4, 2] : List Int).length ∧
        ([1, 3, 5, 8, 7, 4, 2] : List Int).getD j 0 = 4 ∧
        findTargetInMountainArray [1, 3, 5, 8, 7, 4, 2] 4 = (j : Int)) ∧
    ((∀ j : Nat, j < ([1, 3, 5, 8, 7, 4, 2] : List Int).length →
        ([1, 3, 5, 8, 7, 4, 2] : List Int).getD j 0 ≠ 4) →
      findTargetInMountainArray [1, 3, 5, 8, 7, 4, 2] 4 = -1) :=
  mountain_search_correct [1, 3, 5, 8, 7, 4, 2] 3 4 ⟨by decide, by decide, by decide⟩

/-- C7: when the target occurs both in the ascending prefix and in the
descending suffix of a mountain array, the search returns the
ascending-side index (the ascending half is searched first). -/
theorem mountain_search_prefers_ascending (arr : List Int) (pk : Nat) (target : Int)
    (i1 i2 : Nat) (hm : IsMountain arr pk) (hi1 : i1 ≤ pk) (hv1 : arr.getD i1 0 = target)
    (hi2a : pk < i2) (hi2b : i2 < arr.length) (hv2 : arr.getD i2 0 = target) :
    findTargetInMountainArray arr target = (i1 : Int) :=
  findTargetInMountainArray_asc hm hi1 hv1

/-- Witness for C7: `[2,3,2]` with target `2`, present at the ascending
index 0 and the descending index 2; the search returns 0. -/
theorem mountain_search_prefers_ascending_witness :
    findTargetInMountainArray [2, 3, 2] 2 = ((0 : Nat) : Int) :=
  mountain_search_prefers_ascending [2, 3, 2] 1 2 0 2
    ⟨by decide, by decide, by decide⟩ (by decide) (by decide) (by decide) (by decide)
    (by decide)

/-! ### In-bounds instrumentation agrees with the plain functions (claim C9) -/

lemma getC_in (arr : List Int) (i : Int) (h0 : 0 ≤ i) (h1 : i < (arr.length : Int)) :
    getC arr i = some (arr.getD i.toNat 0) := by
  unfold getC
  rw [if_pos ⟨h0, h1⟩]

lemma getC_natCast (arr : List Int) (i : Nat) (h : i < arr.length) :
    getC arr (i : Int) = some (arr.getD i 0) := by
  rw [getC_in arr (i : Int) (by omega) (by omega), Int.toNat_natCast]

/-- One bounds-checked step of the peak loop, under in-bounds windows. -/
lemma findPeakIndexFC_succ_in (arr : List Int) (fuel : Nat) (left right : Int)
    (hlt : left < right) (h0 : 0 ≤ left) (h2 : right ≤ (arr.length : Int) - 1) :
    findPeakIndexFC arr (fuel + 1) left right =
      if arr.getD (left + (right - left) / 2).toNat 0 <
          arr.getD (left + (right - left) / 2 + 1).toNat 0 then
        findPeakIndexFC arr fuel (left + (right - left) / 2 + 1) right
      else findPeakIndexFC arr fuel left (left + (right - left) / 2) := by
  simp only [findPeakIndexFC]
  rw [if_pos hlt, getC_in arr _ (by omega) (by omega), getC_in arr _ (by omega) (by omega)]

/-- Under in-bounds windows, the bounds-checked peak loop performs no
out-of-bounds access: it coincides with the plain loop. -/
lemma findPeakIndexFC_eq (arr : List Int) :
    ∀ fuel : Nat, ∀ left right : Int, 0 ≤ left → right ≤ (arr.length : Int) - 1 →
      findPeakIndexFC arr fuel left right = findPeakIndexF arr fuel left right := by
  intro fuel
  induction fuel with
  | zero => intro left right _ _; rfl
  | succ fuel ih =>
    intro left right h0 h2
    rw [findPeakIndexF_succ]
    by_cases hlt : left < right
    · rw [findPeakIndexFC_succ_in arr fuel left right hlt h0 h2, if_pos hlt]
      by_cases hcmp : arr.getD (left + (right - left) / 2).toNat 0 <
          arr.getD (left + (right - left) / 2 + 1).toNat 0
      · rw [if_pos hcmp, if_pos hcmp]
        exact ih (left + (right - left) / 2 + 1) right (by omega) h2
      · rw [if_neg hcmp, if_neg hcmp]
        exact ih left (left + (right - left) / 2) h0 (by omega)
    · rw [if_neg hlt]
      simp only [findPeakIndexFC]
      rw [if_neg hlt]

/-- One bounds-checked step of `lowerBoundF` on an in-bounds range. -/
lemma lowerBoundFC_succ_in (arr : List Int) (comp : Int → Int → Bool) (value : Int)
    (fuel first count : Nat) (hc0 : ¬(count = 0)) (hin : first + count ≤ arr.length) :
    lowerBoundFC arr comp value (fuel + 1) first count =
      if comp (arr.getD (first + count / 2) 0) value then
        lowerBoundFC arr comp value fuel (first + count / 2 + 1) (count - (count / 2 + 1))
      else lowerBoundFC arr comp value fuel first (count / 2) := by
  simp only [lowerBoundFC]
  rw [if_neg hc0, getC_natCast arr (first + count / 2) (by omega)]

/-- On an in-bounds range the bounds-checked `lowerBoundF` performs no
out-of-bounds access: it coincides with the plain one. -/
lemma lowerBoundFC_eq (arr : List Int) (comp : Int → Int → Bool) (value : Int) :
    ∀ fuel first count : Nat, first + count ≤ arr.length →
      lowerBoundFC arr comp value fuel first count =
        lowerBoundF arr comp value fuel first count := by
  intro fuel
  induction fuel with
  | zero => intro first count _; rfl
  | succ fuel ih =>
    intro first count hin
    rw [lowerBoundF_succ]
    by_cases hc0 : count = 0
    · subst hc0
      rw [if_pos rfl]
      simp [lowerBoundFC]
    · rw [if_neg hc0, lowerBoundFC_succ_in arr comp value fuel first count hc0 hin]
      by_cases hcomp : comp (arr.getD (first + count / 2) 0) value
      · rw [if_pos hcomp, if_pos hcomp]
        exact ih (first + count / 2 + 1) (count - (count / 2 + 1)) (by omega)
      · rw [if_neg hcomp, if_neg hcomp]
        exact ih first (count / 2) (by omega)

/-- The bounds-checked ascending binary search coincides with the plain one
whenever its iterator range lies inside the array. -/
lemma binarySearchAscendingC_eq (arr : List Int) (target : Int) (left right : Int)
    (h0 : 0 ≤ left) (h1 : left ≤ right + 1) (h2 : right + 1 ≤ (arr.length : Int)) :
    binarySearchAscendingC arr target left right =
      some (binarySearchAscending arr target left right) := by
  obtain ⟨m, heq, hb1, hb2⟩ :=
    lowerBoundF_isSome arr less target ((right + 1 - left).toNat + 1) left.toNat
      (right + 1 - left).toNat le_rfl
  have heqC := lowerBoundFC_eq arr less target ((right + 1 - left).toNat + 1) left.toNat
    (right + 1 - left).toNat (by omega)
  simp only [binarySearchAscendingC, binarySearchAscending]
  rw [heqC, heq]
  dsimp only
  by_cases hend : (m : Int) ≠ right + 1
  · rw [if_pos hend, getC_in arr (m : Int) (by omega) (by omega), Int.toNat_natCast]
    dsimp only
    by_cases hv : arr.getD m 0 = target
    · rw [if_pos hv, if_pos ⟨hend, hv⟩]
    · rw [if_neg hv, if_neg (fun hAnd => hv hAnd.2)]
  · rw [if_neg hend, if_neg (fun hAnd => hend hAnd.1)]

/-- The bounds-checked descending binary search coincides with the plain one
whenever its iterator range lies inside the array. -/
lemma binarySearchDescendingC_eq (arr : List Int) (target : Int) (left right : Int)
    (h0 : 0 ≤ left) (h1 : left ≤ right + 1) (h2 : right + 1 ≤ (arr.length : Int)) :
    binarySearchDescendingC arr target left right =
      some (binarySearchDescending arr target left right) := by
  obtain ⟨m, heq, hb1, hb2⟩ :=
    lowerBoundF_isSome arr greater target ((right + 1 - left).toNat + 1) left.toNat
      (right + 1 - left).toNat le_rfl
  have heqC := lowerBoundFC_eq arr greater target ((right + 1 - left).toNat + 1) left.toNat
    (right + 1 - left).toNat (by omega)
  simp only [binarySearchDescendingC, binarySearchDescending]
  rw [heqC, heq]
  dsimp only
  by_cases hend : (m : Int) ≠ right + 1
  · rw [if_pos hend, getC_in arr (m : Int) (by omega) (by omega), Int.toNat_natCast]
    dsimp only
    by_cases hv : arr.getD m 0 = target
    · rw [if_pos hv, if_pos ⟨hend, hv⟩]
    · rw [if_neg hv, if_neg (fun hAnd => hv hAnd.2)]
  · rw [if_neg hend, if_neg (fun hAnd => hend hAnd.1)]

/-- On every input (mountain-shaped or not) the whole mountain search
performs only in-bounds accesses and the instrumented run computes exactly
the plain result. -/
lemma findTargetInMountainArrayC_eq (arr : List Int) (target : Int) :
    findTargetInMountainArrayC arr target = some (findTargetInMountainArray arr target) := by
  by_cases hlen : arr.length = 0
  · simp only [findTargetInMountainArrayC, findTargetInMountainArray]
    rw [if_pos hlen, if_pos hlen]
  · obtain ⟨r, heqP, hr1, hr2⟩ := findPeakIndexF_bounds arr arr.length 0
      ((arr.length : Int) - 1) (by omega) (by omega)
    have heqPC := findPeakIndexFC_eq arr arr.length 0 ((arr.length : Int) - 1)
      le_rfl (by omega)
    have hpeak : findPeakIndex arr = r := by
      unfold findPeakIndex
      rw [heqP]
      rfl
    have hascC := binarySearchAscendingC_eq arr target 0 r le_rfl (by omega) (by omega)
    simp only [findTargetInMountainArrayC, findTargetInMountainArray]
    rw [if_neg hlen, if_neg hlen, heqPC, heqP, hpeak]
    dsimp only
    rw [hascC]
    dsimp only
    by_cases hres : binarySearchAscending arr target 0 r ≠ -1
    · rw [if_pos hres, if_pos hres]
    · rw [if_neg hres, if_neg hres]
      exact binarySearchDescendingC_eq arr target (r + 1) ((arr.length : Int) - 1)
        (by omega) (by omega) (by omega)

/-- C9: on the degenerate mountain arrays whose peak is at the last index
(strictly ascending input) or at index 0 (strictly descending input), every
array access performed during `findTargetInMountainArray` — peak finding and
both half-searches included — is within bounds, and the instrumented run
returns the plain result. -/
theorem mountain_search_degenerate_inbounds (arr : List Int) (target : Int)
    (hdeg : (∀ i : Nat, i < arr.length - 1 → arr.getD i 0 < arr.getD (i + 1) 0) ∨
      (∀ i : Nat, i < arr.length - 1 → arr.getD (i + 1) 0 < arr.getD i 0)) :
    findTargetInMountainArrayC arr target = some (findTargetInMountainArray arr target) :=
  findTargetInMountainArrayC_eq arr target

/-- Witness for C9: the ascending degenerate mountain `[1,2,3,4,5]` with
target `3`. -/
theorem mountain_search_degenerate_inbounds_witness :
    findTargetInMountainArrayC [1, 2, 3, 4, 5] 3 =
      some (findTargetInMountainArray [1, 2, 3, 4, 5] 3) :=
  mountain_search_degenerate_inbounds [1, 2, 3, 4, 5] 3 (Or.inl (by decide))

/-! ### The validator computes "in-order is strictly increasing" (claim C3) -/

/-- The in-order elements still to be visited once the traversal resumes
from the given stack: for each stacked node, its value then its right
subtree. -/
def stackRest : List (Int × Tree) → List Int
  | [] => []
  | (v, r) :: s => v :: (Tree.inorder r ++ stackRest s)

/-- Fuel needed to drain a stack: each entry costs one pop plus the pushes
and pops of its right subtree. -/
def stackWeight : List (Int × Tree) → Nat
  | [] => 0
  | (_, r) :: s => 2 * r.size + 1 + stackWeight s

/-- Functional view of the validator's running check: scan the list,
failing as soon as an element is not strictly greater than its
predecessor (or the initial `prev`). -/
def chainCheck : Option Int → List Int → Bool
  | _, [] => true
  | none, x :: xs => chainCheck (some x) xs
  | some p, x :: xs => if x ≤ p then false else chainCheck (some x) xs

lemma chainCheck_nil (prev : Option Int) : chainCheck prev [] = true := by
  cases prev <;> rfl

lemma chainCheck_none_cons (x : Int) (xs : List Int) :
    chainCheck none (x :: xs) = chainCheck (some x) xs := rfl

lemma chainCheck_some_cons (p x : Int) (xs : List Int) :
    chainCheck (some p) (x :: xs) = if x ≤ p then false else chainCheck (some x) xs := rfl

lemma validLoopF_node (fuel : Nat) (stack : List (Int × Tree)) (l : Tree) (v : Int)
    (r : Tree) (prev : Option Int) :
    validLoopF (fuel + 1) stack (Tree.node l v r) prev =
      validLoopF fuel ((v, r) :: stack) l prev := by
  cases stack <;> rfl

lemma validLoopF_nil_nil (fuel : Nat) (prev : Option Int) :
    validLoopF (fuel + 1) [] Tree.nil prev = some true := rfl

lemma validLoopF_pop (fuel : Nat) (v : Int) (r : Tree) (stack : List (Int × Tree))
    (prev : Option Int) :
    validLoopF (fuel + 1) ((v, r) :: stack) Tree.nil prev =
      match prev with
      | some p => if v ≤ p then some false else validLoopF fuel stack r (some v)
      | none => validLoopF fuel stack r (some v) := rfl

/-- The iterative stack traversal computes `chainCheck` of the remaining
in-order sequence; `2 * size + weight + 1` fuel always suffices. -/
lemma validLoopF_eq_chainCheck :
    ∀ fuel : Nat, ∀ stack : List (Int × Tree), ∀ curr : Tree, ∀ prev : Option Int,
      2 * curr.size + stackWeight stack + 1 ≤ fuel →
      validLoopF fuel stack curr prev =
        some (chainCheck prev (curr.inorder ++ stackRest stack)) := by
  intro fuel
  induction fuel with
  | zero =>
    intro stack curr prev hf
    exact absurd hf (by omega)
  | succ fuel ih =>
    intro stack curr prev hf
    cases curr with
    | node l v r =>
      rw [validLoopF_node,
        ih ((v, r) :: stack) l prev
          (by simp only [Tree.size] at hf; simp only [stackWeight]; omega)]
      simp only [Tree.inorder, stackRest, List.cons_append, List.append_assoc]
    | nil =>
      cases stack with
      | nil =>
        rw [validLoopF_nil_nil]
        cases prev <;> rfl
      | cons hd stack =>
        obtain ⟨v, r⟩ := hd
        rw [validLoopF_pop]
        cases prev with
        | none =>
          dsimp only
          rw [ih stack r (some v)
            (by simp only [Tree.size] at hf; simp only [stackWeight] at hf; omega)]
          rfl
        | some p =>
          dsimp only
          show (if v ≤ p then some false else validLoopF fuel stack r (some v)) =
            some (if v ≤ p then false else chainCheck (some v) (r.inorder ++ stackRest stack))
          by_cases hvp : v ≤ p
          · rw [if_pos hvp, if_pos hvp]
          · rw [if_neg hvp, if_neg hvp,
              ih stack r (some v)
                (by simp only [Tree.size] at hf; simp only [stackWeight] at hf; omega)]

lemma chainCheck_some_iff : ∀ (l : List Int) (p : Int),
    chainCheck (some p) l = true ↔ List.Chain (· < ·) p l := by
  intro l
  induction l with
  | nil =>
    intro p
    rw [chainCheck_nil]
    exact ⟨fun _ => List.Chain.nil, fun _ => rfl⟩
  | cons x xs ihx =>
    intro p
    rw [chainCheck_some_cons, List.chain_cons]
    by_cases hxp : x ≤ p
    · rw [if_pos hxp]
      constructor
      · intro h
        exact absurd h (by simp)
      · rintro ⟨h1, -⟩
        exact absurd h1 (by omega)
    · rw [if_neg hxp, ihx x]
      exact ⟨fun h => ⟨by omega, h⟩, fun h => h.2⟩

lemma chainCheck_none_iff (l : List Int) :
    chainCheck none l = true ↔ List.Pairwise (· < ·) l := by
  cases l with
  | nil =>
    rw [chainCheck_nil]
    simp
  | cons x xs =>
    rw [chainCheck_none_cons, chainCheck_some_iff]
    exact List.chain_iff_pairwise

/-- `isValidBST` decides exactly "the in-order value sequence is strictly
increasing". -/
lemma isValidBST_iff_pairwise (t : Tree) :
    isValidBST t = true ↔ List.Pairwise (· < ·) t.inorder := by
  unfold isValidBST
  rw [validLoopF_eq_chainCheck (2 * t.size + 1) [] t none (by simp [stackWeight]),
    Option.getD_some, show t.inorder ++ stackRest [] = t.inorder by simp [stackRest],
    chainCheck_none_iff]

/-- C3: `isValidBST` returns `true` exactly when the tree's in-order value
sequence is strictly increasing; in particular it returns `true` on the
empty tree. -/
theorem validator_iff_strictly_increasing (t : Tree) :
    (isValidBST t = true ↔ List.Pairwise (· < ·) t.inorder) ∧
    isValidBST Tree.nil = true :=
  ⟨isValidBST_iff_pairwise t, by decide⟩

/-! ### The builder (claims C4, C5, C8) -/

/-- The range-bounded BST invariant that `build` enforces: every value lies
strictly between the bounds accumulated from the ancestors. -/
def BST : Tree → Int → Int → Prop
  | Tree.nil, _, _ => True
  | Tree.node l v r, lo, hi => lo < v ∧ v < hi ∧ BST l lo v ∧ BST r v hi

lemma BST.pairwise_mem : ∀ (t : Tree) (lo hi : Int), BST t lo hi →
    List.Pairwise (· < ·) t.inorder ∧ ∀ x ∈ t.inorder, lo < x ∧ x < hi := by
  intro t
  induction t with
  | nil =>
    intro lo hi _
    exact ⟨List.Pairwise.nil, by simp [Tree.inorder]⟩
  | node l v r ihl ihr =>
    intro lo hi hb
    obtain ⟨h1, h2, hbl, hbr⟩ := hb
    obtain ⟨hpl, hml⟩ := ihl lo v hbl
    obtain ⟨hpr, hmr⟩ := ihr v hi hbr
    constructor
    · rw [Tree.inorder, List.pairwise_append]
      refine ⟨hpl, ?_, ?_⟩
      · rw [List.pairwise_cons]
        exact ⟨fun y hy => (hmr y hy).1, hpr⟩
      · intro x hx y hy
        rcases List.mem_cons.mp hy with hEq | hy2
        · rw [hEq]
          exact (hml x hx).2
        · exact lt_trans (hml x hx).2 (hmr y hy2).1
    · intro x hx
      rw [Tree.inorder] at hx
      rcases List.mem_append.mp hx with h | h
      · exact ⟨(hml x h).1, lt_trans (hml x h).2 h2⟩
      · rcases List.mem_cons.mp h with hEq | h2m
        · rw [hEq]
          exact ⟨h1, h2⟩
        · exact ⟨lt_trans h1 (hmr x h2m).1, (hmr x h2m).2⟩

lemma BST.of_pairwise_mem : ∀ (t : Tree) (lo hi : Int),
    List.Pairwise (· < ·) t.inorder → (∀ x ∈ t.inorder, lo < x ∧ x < hi) →
    BST t lo hi := by
  intro t
  induction t with
  | nil =>
    intro lo hi _ _
    trivial
  | node l v r ihl ihr =>
    intro lo hi hp hmem
    rw [Tree.inorder] at hp hmem
    rw [List.pairwise_append] at hp
    obtain ⟨hpl, hpr2, hcross⟩ := hp
    rw [List.pairwise_cons] at hpr2
    obtain ⟨hvr, hpr⟩ := hpr2
    have hvmem : lo < v ∧ v < hi := hmem v (by simp)
    refine ⟨hvmem.1, hvmem.2, ?_, ?_⟩
    · exact ihl lo v hpl
        (fun x hx => ⟨(hmem x (by simp [hx])).1, hcross x hx v (by simp)⟩)
    · exact ihr v hi hpr (fun x hx => ⟨hvr x hx, (hmem x (by simp [hx])).2⟩)

/-- One-step unfolding of `buildF`. -/
lemma buildF_succ (nums : List Int) (fuel index : Nat) (lo hi : Int) :
    buildF nums (fuel + 1) index lo hi =
      if nums.length ≤ index then some (Tree.nil, index)
      else if nums.getD index 0 ≤ lo ∨ nums.getD index 0 ≥ hi then some (Tree.nil, index)
      else
        match buildF nums fuel (index + 1) lo (nums.getD index 0) with
        | none => none
        | some (l, i1) =>
          match buildF nums fuel i1 (nums.getD index 0) hi with
          | none => none
          | some (r, i2) => some (Tree.node l (nums.getD index 0) r, i2) := rfl

/-- The cursor never moves backwards and never runs past the array. -/
lemma buildF_index_le (nums : List Int) :
    ∀ fuel index : Nat, ∀ lo hi : Int, ∀ t : Tree, ∀ i2 : Nat,
      buildF nums fuel index lo hi = some (t, i2) →
      index ≤ i2 ∧ i2 ≤ max index nums.length := by
  intro fuel
  induction fuel with
  | zero =>
    intro index lo hi t i2 h
    simp [buildF] at h
  | succ fuel ih =>
    intro index lo hi t i2 h
    rw [buildF_succ] at h
    by_cases h1 : nums.length ≤ index
    · rw [if_pos h1] at h
      simp only [Option.some.injEq, Prod.mk.injEq] at h
      omega
    · rw [if_neg h1] at h
      by_cases h2 : nums.getD index 0 ≤ lo ∨ nums.getD index 0 ≥ hi
      · rw [if_pos h2] at h
        simp only [Option.some.injEq, Prod.mk.injEq] at h
        omega
      · rw [if_neg h2] at h
        cases heql : buildF nums fuel (index + 1) lo (nums.getD index 0) with
        | none =>
          rw [heql] at h
          simp at h
        | some p =>
          obtain ⟨l, i1⟩ := p
          rw [heql] at h
          dsimp only at h
          cases heqr : buildF nums fuel i1 (nums.getD index 0) hi with
          | none =>
            rw [heqr] at h
            simp at h
          | some q =>
            obtain ⟨r, i2q⟩ := q
            rw [heqr] at h
            dsimp only at h
            simp only [Option.some.injEq, Prod.mk.injEq] at h
            obtain ⟨-, hq⟩ := h
            have hl := ih (index + 1) lo (nums.getD index 0) l i1 heql
            have hr := ih i1 (nums.getD index 0) hi r i2q heqr
            omega

/-- With fuel covering the remaining elements (plus one), `buildF` returns. -/
lemma buildF_isSome (nums : List Int) :
    ∀ fuel index : Nat, ∀ lo hi : Int, 1 ≤ fuel → nums.length + 1 ≤ fuel + index →
      ∃ t : Tree, ∃ i2 : Nat, buildF nums fuel index lo hi = some (t, i2) := by
  intro fuel
  induction fuel with
  | zero =>
    intro index lo hi h1 _
    exact absurd h1 (by omega)
  | succ fuel ih =>
    intro index lo hi _ h2
    rw [buildF_succ]
    by_cases hb1 : nums.length ≤ index
    · rw [if_pos hb1]
      exact ⟨Tree.nil, index, rfl⟩
    · rw [if_neg hb1]
      by_cases hb2 : nums.getD index 0 ≤ lo ∨ nums.getD index 0 ≥ hi
      · rw [if_pos hb2]
        exact ⟨Tree.nil, index, rfl⟩
      · rw [if_neg hb2]
        obtain ⟨l, i1, heql⟩ := ih (index + 1) lo (nums.getD index 0) (by omega) (by omega)
        have hi1 := buildF_index_le nums fuel (index + 1) lo (nums.getD index 0) l i1 heql
        obtain ⟨r, i2, heqr⟩ := ih i1 (nums.getD index 0) hi (by omega) (by omega)
        rw [heql]
        dsimp only
        rw [heqr]
        exact ⟨Tree.node l (nums.getD index 0) r, i2, rfl⟩

/-- Whatever the input sequence, every tree `build` returns satisfies the
range-bounded BST invariant. -/
lemma buildF_BST (nums : List Int) :
    ∀ fuel index : Nat, ∀ lo hi : Int, ∀ t : Tree, ∀ i2 : Nat,
      buildF nums fuel index lo hi = some (t, i2) → BST t lo hi := by
  intro fuel
  induction fuel with
  | zero =>
    intro index lo hi t i2 h
    simp [buildF] at h
  | succ fuel ih =>
    intro index lo hi t i2 h
    rw [buildF_succ] at h
    by_cases h1 : nums.length ≤ index
    · rw [if_pos h1] at h
      simp only [Option.some.injEq, Prod.mk.injEq] at h
      rw [← h.1]
      trivial
    · rw [if_neg h1] at h
      by_cases h2 : nums.getD index 0 ≤ lo ∨ nums.getD index 0 ≥ hi
      · rw [if_pos h2] at h
        simp only [Option.some.injEq, Prod.mk.injEq] at h
        rw [← h.1]
        trivial
      · rw [if_neg h2] at h
        push_neg at h2
        cases heql : buildF nums fuel (index + 1) lo (nums.getD index 0) with
        | none =>
          rw [heql] at h
          simp at h
        | some p =>
          obtain ⟨l, i1⟩ := p
          rw [heql] at h
          dsimp only at h
          cases heqr : buildF nums fuel i1 (nums.getD index 0) hi with
          | none =>
            rw [heqr] at h
            simp at h
          | some q =>
            obtain ⟨r, i2q⟩ := q
            rw [heqr] at h
            dsimp only at h
            simp only [Option.some.injEq, Prod.mk.injEq] at h
            rw [← h.1]
            exact ⟨by omega, by omega,
              ih (index + 1) lo (nums.getD index 0) l i1 heql,
              ih i1 (nums.getD index 0) hi r i2q heqr⟩

lemma head?_drop_eq (l : List Int) (n : Nat) (h : n < l.length) :
    (l.drop n).head? = some (l.getD n 0) := by
  rw [List.head?_drop, List.getElem?_eq_getElem h, List.getD_eq_getElem?_getD,
    List.getElem?_eq_getElem h]
  rfl

/-- Reconstruction: on a sequence that starts (at the cursor) with the
pre-order of a BST fitting the current bounds, and whose next element after
that pre-order (if any) falls outside the bounds, `build` rebuilds exactly
that BST and leaves the cursor right after its pre-order. -/
lemma buildF_reconstruct (nums : List Int) :
    ∀ t : Tree, ∀ lo hi : Int, ∀ index fuel : Nat, ∀ rest : List Int,
      BST t lo hi →
      nums.drop index = t.preorder ++ rest →
      (∀ x : Int, rest.head? = some x → x ≤ lo ∨ hi ≤ x) →
      1 ≤ fuel → nums.length + 1 ≤ fuel + index →
      buildF nums fuel index lo hi = some (t, index + t.preorder.length) ∧
        nums.drop (index + t.preorder.length) = rest := by
  intro t
  induction t with
  | nil =>
    intro lo hi index fuel rest _ hpre hrest h1f h2f
    obtain ⟨f, rfl⟩ : ∃ f : Nat, fuel = f + 1 := ⟨fuel - 1, by omega⟩
    have hdrop : nums.drop index = rest := by simpa [Tree.preorder] using hpre
    rw [buildF_succ]
    by_cases hend : nums.length ≤ index
    · rw [if_pos hend]
      exact ⟨rfl, by simpa [Tree.preorder] using hdrop⟩
    · rw [if_neg hend]
      have hx : (nums.drop index).head? = some (nums.getD index 0) :=
        head?_drop_eq nums index (by omega)
      rw [hdrop] at hx
      have hor := hrest _ hx
      rw [if_pos hor]
      exact ⟨rfl, by simpa [Tree.preorder] using hdrop⟩
  | node l v r ihl ihr =>
    intro lo hi index fuel rest hb hpre hrest h1f h2f
    obtain ⟨hlo, hhi, hbl, hbr⟩ := hb
    obtain ⟨f, rfl⟩ : ∃ f : Nat, fuel = f + 1 := ⟨fuel - 1, by omega⟩
    have hidx : index < nums.length := by
      by_contra hcon
      push_neg at hcon
      rw [List.drop_eq_nil_of_le hcon, Tree.preorder] at hpre
      exact absurd hpre.symm (by simp)
    have hv : nums.getD index 0 = v := by
      have h := head?_drop_eq nums index hidx
      rw [hpre, Tree.preorder] at h
      simp only [List.cons_append, List.head?_cons, Option.some.injEq] at h
      exact h.symm
    have htail : nums.drop (index + 1) = l.preorder ++ (r.preorder ++ rest) := by
      have h1 : nums.drop (index + 1) = (nums.drop index).tail := by
        rw [← List.drop_one, List.drop_drop]
      rw [h1, hpre, Tree.preorder]
      simp [List.append_assoc]
    have hrestl : ∀ x : Int, (r.preorder ++ rest).head? = some x → x ≤ lo ∨ v ≤ x := by
      intro x hx
      cases r with
      | nil =>
        simp only [Tree.preorder, List.nil_append] at hx
        rcases hrest x hx with h | h
        · exact Or.inl h
        · exact Or.inr (by omega)
      | node rl rv rr =>
        simp only [Tree.preorder, List.cons_append, List.head?_cons,
          Option.some.injEq] at hx
        subst hx
        exact Or.inr (le_of_lt hbr.1)
    obtain ⟨heql, hdl⟩ := ihl lo v (index + 1) f (r.preorder ++ rest) hbl htail hrestl
      (by omega) (by omega)
    have hrestr : ∀ x : Int, rest.head? = some x → x ≤ v ∨ hi ≤ x := by
      intro x hx
      rcases hrest x hx with h | h
      · exact Or.inl (by omega)
      · exact Or.inr h
    obtain ⟨heqr, hdr⟩ := ihr v hi (index + 1 + l.preorder.length) f rest hbr hdl hrestr
      (by omega) (by omega)
    rw [buildF_succ, if_neg (by omega : ¬(nums.length ≤ index)), hv,
      if_neg (by omega : ¬(v ≤ lo ∨ v ≥ hi)), heql]
    dsimp only
    rw [heqr]
    dsimp only
    have harith : index + 1 + l.preorder.length + r.preorder.length =
        index + (Tree.node l v r).preorder.length := by
      simp only [Tree.preorder, List.length_cons, List.length_append]
      omega
    rw [harith] at hdr ⊢
    exact ⟨rfl, hdr⟩

/-- `sortedArrayToBST` applied to the pre-order of a BST whose values fit
strictly inside `(intMin, intMax)` rebuilds that tree, and `build` consumes
the whole sequence. -/
lemma sortedArrayToBST_of_BST (t : Tree) (hb : BST t intMin intMax) :
    sortedArrayToBST t.preorder = t ∧
    buildF t.preorder (t.preorder.length + 1) 0 intMin intMax =
      some (t, t.preorder.length) := by
  obtain ⟨h1, -⟩ := buildF_reconstruct t.preorder t intMin intMax 0
    (t.preorder.length + 1) [] hb (by simp) (fun x hx => absurd hx (by simp))
    (by omega) (by omega)
  rw [Nat.zero_add] at h1
  refine ⟨?_, h1⟩
  unfold sortedArrayToBST
  by_cases hemp : t.preorder.isEmpty = true
  · rw [if_pos hemp]
    cases t with
    | nil => rfl
    | node l v r => simp [Tree.preorder] at hemp
  · rw [if_neg hemp, h1]

/-- C4 (amended): for every sequence that is the pre-order traversal of a
valid BST with distinct values all strictly between `intMin` and `intMax`,
`sortedArrayToBST` reconstructs that BST, the cursor finishes at the end of
the sequence, and the result's pre-order equals the input. -/
theorem builder_reconstructs (t : Tree)
    (hbst : List.Pairwise (· < ·) t.inorder)
    (hbounds : ∀ x ∈ t.inorder, intMin < x ∧ x < intMax) :
    sortedArrayToBST t.preorder = t ∧
    (buildF t.preorder (t.preorder.length + 1) 0 intMin intMax).map Prod.snd =
      some t.preorder.length ∧
    (sortedArrayToBST t.preorder).preorder = t.preorder := by
  obtain ⟨h1, h2⟩ :=
    sortedArrayToBST_of_BST t (BST.of_pairwise_mem t intMin intMax hbst hbounds)
  refine ⟨h1, ?_, by rw [h1]⟩
  rw [h2]
  rfl

/-- The example tree of the second program's `main`:
pre-order `[10, 5, 1, 7, 15, 12, 20]`. -/
def sampleTree : Tree :=
  Tree.node
    (Tree.node (Tree.node Tree.nil 1 Tree.nil) 5 (Tree.node Tree.nil 7 Tree.nil))
    10
    (Tree.node (Tree.node Tree.nil 12 Tree.nil) 15 (Tree.node Tree.nil 20 Tree.nil))

/-- Witness for C4 at the `main` example `[10, 5, 1, 7, 15, 12, 20]`. -/
theorem builder_reconstructs_witness :
    sortedArrayToBST sampleTree.preorder = sampleTree ∧
    (buildF sampleTree.preorder (sampleTree.preorder.length + 1) 0 intMin intMax).map
      Prod.snd = some sampleTree.preorder.length ∧
    (sortedArrayToBST sampleTree.preorder).preorder = sampleTree.preorder :=
  builder_reconstructs sampleTree (by decide) (by decide)

/-- Counterexample to C4 as stated: `[intMax]` is the pre-order of a valid
single-node BST, yet `build` rejects `intMax` against the exclusive seed
bound, consumes nothing and returns the empty tree. -/
theorem builder_reconstructs_counterexample :
    List.Pairwise (· < ·) (Tree.node Tree.nil intMax Tree.nil).inorder ∧
    isValidBST (Tree.node Tree.nil intMax Tree.nil) = true ∧
    (Tree.node Tree.nil intMax Tree.nil).preorder = [intMax] ∧
    (buildF [intMax] 2 0 intMin intMax).map Prod.snd = some 0 ∧
    sortedArrayToBST (Tree.node Tree.nil intMax Tree.nil).preorder = Tree.nil ∧
    Tree.nil ≠ Tree.node Tree.nil intMax Tree.nil := by
  decide

/-- C5 (amended): for every BST with strictly ordered, duplicate-free values
all strictly between `intMin` and `intMax`, the validator accepts it and
rebuilding from its pre-order preserves the in-order sequence. -/
theorem builder_validator_round_trip (t : Tree)
    (hbst : List.Pairwise (· < ·) t.inorder)
    (hbounds : ∀ x ∈ t.inorder, intMin < x ∧ x < intMax) :
    isValidBST t = true ∧ (sortedArrayToBST t.preorder).inorder = t.inorder := by
  obtain ⟨h1, -⟩ :=
    sortedArrayToBST_of_BST t (BST.of_pairwise_mem t intMin intMax hbst hbounds)
  exact ⟨(isValidBST_iff_pairwise t).mpr hbst, by rw [h1]⟩

/-- Witness for C5 at the `main` example tree. -/
theorem builder_validator_round_trip_witness :
    isValidBST sampleTree = true ∧
    (sortedArrayToBST sampleTree.preorder).inorder = sampleTree.inorder :=
  builder_validator_round_trip sampleTree (by decide) (by decide)

/-- Counterexample to C5 as stated: the valid single-node BST holding
`intMin` validates `true`, but the round trip loses it. -/
theorem builder_validator_round_trip_counterexample :
    List.Pairwise (· < ·) (Tree.node Tree.nil intMin Tree.nil).inorder ∧
    isValidBST (Tree.node Tree.nil intMin Tree.nil) = true ∧
    (sortedArrayToBST (Tree.node Tree.nil intMin Tree.nil).preorder).inorder ≠
      (Tree.node Tree.nil intMin Tree.nil).inorder := by
  decide

/-- C8: whatever the input sequence — a valid BST pre-order or not — the
tree `sortedArrayToBST` returns has a strictly increasing in-order sequence,
so `isValidBST` accepts it. -/
theorem builder_output_is_bst (nums : List Int) :
    List.Pairwise (· < ·) (sortedArrayToBST nums).inorder ∧
    isValidBST (sortedArrayToBST nums) = true := by
  have hp : List.Pairwise (· < ·) (sortedArrayToBST nums).inorder := by
    unfold sortedArrayToBST
    by_cases hemp : nums.isEmpty = true
    · rw [if_pos hemp]
      simp [Tree.inorder]
    · rw [if_neg hemp]
      obtain ⟨t, i2, heq⟩ :=
        buildF_isSome nums (nums.length + 1) 0 intMin intMax (by omega) (by omega)
      rw [heq]
      exact (BST.pairwise_mem t intMin intMax
        (buildF_BST nums (nums.length + 1) 0 intMin intMax t i2 heq)).1
  exact ⟨hp, (isValidBST_iff_pairwise _).mpr hp⟩

/-! ### Empty inputs (claim C6) and termination (claim C10) -/

/-- C6: on empty input, `search` and `findTargetInMountainArray` return the
not-found sentinel `-1` and `sortedArrayToBST` returns the empty tree; all
three are ordinary returns of total functions. -/
theorem empty_inputs (target : Int) :
    search [] target = -1 ∧ findTargetInMountainArray [] target = -1 ∧
    sortedArrayToBST [] = Tree.nil :=
  ⟨rfl, rfl, rfl⟩

/-- The rotated-array search loop finishes within `right - left + 2` guard
evaluations on any input: the window shrinks strictly each iteration. -/
lemma searchLoopF_isSome (nums : List Int) (target : Int) :
    ∀ fuel : Nat, ∀ left right : Int, left ≤ right + 1 →
      right - left + 2 ≤ (fuel : Int) →
      (searchLoopF nums target fuel left right).isSome = true := by
  intro fuel
  induction fuel with
  | zero =>
    intro left right h1 hf
    exfalso
    omega
  | succ fuel ih =>
    intro left right h1 hf
    rw [searchLoopF_succ]
    by_cases hlr : left > right
    · rw [if_pos hlr]
      rfl
    · rw [if_neg hlr]
      set mid : Int := left + (right - left) / 2 with hmiddef
      have hml : left ≤ mid := by omega
      have hmr : mid ≤ right := by omega
      by_cases hfound : nums.getD mid.toNat 0 = target
      · rw [if_pos hfound]
        rfl
      · rw [if_neg hfound]
        by_cases hA : nums.getD left.toNat 0 ≤ nums.getD mid.toNat 0
        · rw [if_pos hA]
          by_cases hin : target ≥ nums.getD left.toNat 0 ∧ target < nums.getD mid.toNat 0
          · rw [if_pos hin]
            exact ih left (mid - 1) (by omega) (by omega)
          · rw [if_neg hin]
            exact ih (mid + 1) right (by omega) (by omega)
        · rw [if_neg hA]
          by_cases hin : target > nums.getD mid.toNat 0 ∧ target ≤ nums.getD right.toNat 0
          · rw [if_pos hin]
            exact ih (mid + 1) right (by omega) (by omega)
          · rw [if_neg hin]
            exact ih left (mid - 1) (by omega) (by omega)

/-- C10: every entry point terminates on every finite input within an
explicit number of loop iterations / recursive calls determined by the
input size: the fuelled embeddings return a value (never the out-of-fuel
marker) at the fuel each wrapper supplies. -/
theorem all_calls_terminate (nums : List Int) (target lo hi : Int) (t : Tree) :
    (searchLoopF nums target (nums.length + 1) 0 ((nums.length : Int) - 1)).isSome = true ∧
    (nums.length ≠ 0 →
      (findPeakIndexF nums nums.length 0 ((nums.length : Int) - 1)).isSome = true) ∧
    (∀ comp : Int → Int → Bool, ∀ first count : Nat,
      (lowerBoundF nums comp target (count + 1) first count).isSome = true) ∧
    (validLoopF (2 * t.size + 1) [] t none).isSome = true ∧
    (buildF nums (nums.length + 1) 0 lo hi).isSome = true := by
  refine ⟨?_, ?_, ?_, ?_, ?_⟩
  · exact searchLoopF_isSome nums target (nums.length + 1) 0 ((nums.length : Int) - 1)
      (by omega) (by omega)
  · intro hne
    obtain ⟨r, heq, -, -⟩ := findPeakIndexF_bounds nums nums.length 0
      ((nums.length : Int) - 1) (by omega) (by omega)
    rw [heq]
    rfl
  · intro comp first count
    obtain ⟨m, heq, -, -⟩ := lowerBoundF_isSome nums comp target (count + 1) first count le_rfl
    rw [heq]
    rfl
  · rw [validLoopF_eq_chainCheck (2 * t.size + 1) [] t none (by simp [stackWeight])]
    rfl
  · obtain ⟨tr, i2, heq⟩ :=
      buildF_isSome nums (nums.length + 1) 0 lo hi (by omega) (by omega)
    rw [heq]
    rfl

/-- Witness for C10 at the concrete inputs `[3, 1]`, target `1`, a
one-node tree, and the `std::less` comparator. -/
theorem all_calls_terminate_witness :
    (searchLoopF [3, 1] 1 (([3, 1] : List Int).length + 1) 0
      ((([3, 1] : List Int).length : Int) - 1)).isSome = true ∧
    (findPeakIndexF [3, 1] ([3, 1] : List Int).length 0
      ((([3, 1] : List Int).length : Int) - 1)).isSome = true ∧
    (lowerBoundF [3, 1] less 1 (2 + 1) 0 2).isSome = true ∧
    (validLoopF (2 * (Tree.node Tree.nil 2 Tree.nil).size + 1) []
      (Tree.node Tree.nil 2 Tree.nil) none).isSome = true ∧
    (buildF [3, 1] (([3, 1] : List Int).length + 1) 0 intMin intMax).isSome = true := by
  have h := all_calls_terminate [3, 1] 1 intMin intMax (Tree.node Tree.nil 2 Tree.nil)
  exact ⟨h.1, h.2.1 (by decide), h.2.2.1 less 0 2, h.2.2.2.1, h.2.2.2.2⟩

end Codestudio
